import Mathlib

/-!
Shallow embedding of the `kvs` log-structured key-value store
(`src/store.rs`, `src/server.rs`, `src/error.rs`, `src/network/mod.rs`).

Modelling conventions:
* The on-disk `db` file is a `List Command` — the sequence of JSON-encoded
  records in file order.  Since records are self-delimiting and concatenated,
  byte offsets are in one-to-one order-preserving correspondence with record
  positions; offsets are therefore modelled in record units: the offset of a
  record is its index in the list, and the end-of-file write position of a
  file with `n` records is `n`.  `write` advances the position by one record
  (the source advances it by the byte length of the serialized record).
* The `BufReader` seek cursor of the source is the `reader_pos` field; every
  read seeks absolutely before decoding, so `reader_pos` never influences a
  result, but it is the one piece of state a `get` mutates.
* I/O, serialization and deserialization failures cannot occur on the
  in-memory representation, so the corresponding error branches of the source
  are dead in the model; the semantic error `KeyNotFound` is modelled exactly.
* `KvStore` wraps `Arc<Mutex<IndexedLogFile>>`; its shared state is the
  `IndexedLogFile` value, passed explicitly.
-/

namespace Kvs

/-- Type `Command` from `store.rs`: the log's unit of persistence. -/
inductive Command where
  | Set (k v : String)
  | Remove (k : String)
deriving DecidableEq, Repr

/-- Function `Command::key` from `store.rs`. -/
def Command.key : Command → String
  | .Set k _ => k
  | .Remove k => k

/-- Function `Command::value` from `store.rs`. -/
def Command.value : Command → Option String
  | .Set _ v => some v
  | .Remove _ => none

/-- Type `KvStoreError` from `error.rs` (the `#[cause]` payloads carry no
information relevant to control flow and are dropped; the `name` field of
`OpenFileFailure` is kept because it feeds the display form). -/
inductive KvStoreError where
  | GenericFailure
  | OpenFileFailure (name : String)
  | OpenTmpDirFailure
  | FileMoveFailure
  | FileFlushFailure
  | SerializationFailure
  | DeserializationFailure
  | WriteToFileFailure
  | SeekFileFailure
  | KeyNotFound
deriving DecidableEq, Repr

/-- The display form of each error, from the `#[fail(display = "...")]`
attributes in `error.rs`. -/
def KvStoreError.display : KvStoreError → String
  | .GenericFailure => "generic failure"
  | .OpenFileFailure name => "failed to open file " ++ name
  | .OpenTmpDirFailure => "failed to open temporary file"
  | .FileMoveFailure => "failed to move file"
  | .FileFlushFailure => "failed to flush file"
  | .SerializationFailure => "failed to serialize input"
  | .DeserializationFailure => "failed to deserialize input"
  | .WriteToFileFailure => "failed to write to file"
  | .SeekFileFailure => "failed to seek file"
  | .KeyNotFound => "Key not found"

deriving instance DecidableEq for Except

/-- Alias `type Offset = u64` from `store.rs`, in record units (see header). -/
abbrev Offset := Nat

/-- Type `LogFile` from `store.rs`: the db file content, the reader cursor, the
write position, and the write counter. -/
structure LogFile where
  file : List Command
  reader_pos : Offset
  position : Offset
  num_writes : Nat
deriving DecidableEq, Repr

/-- Function `LogFile::new` from `store.rs`: opens `dir/db` (content `disk`), seeks the
write handle to end-of-file, puts a fresh reader at 0, `num_writes = 0`. -/
def LogFile.new (disk : List Command) : LogFile :=
  { file := disk, reader_pos := 0, position := disk.length, num_writes := 0 }

/-- Function `LogFile::write_cmd` from `store.rs`: remembers the pre-write position as
the record's offset, appends the serialized record, advances the position by
the record's length (one record unit), flushes, bumps `num_writes`, returns
the offset. -/
def LogFile.write_cmd (lf : LogFile) (cmd : Command) : LogFile × Offset :=
  let offset := lf.position
  ({ lf with
      file := lf.file ++ [cmd]
      position := offset + 1
      num_writes := lf.num_writes + 1 }, offset)

/-- Function `LogFile::read_cmd` from `store.rs`: seeks the reader to `offset` and
streams one record; yields `none` when the file ends at or before `offset`.
(The deserialization-failure branch is dead on the in-memory file.) -/
def LogFile.read_cmd (lf : LogFile) (offset : Offset) :
    Except KvStoreError (Option Command) × LogFile :=
  match lf.file[offset]? with
  | some cmd => (.ok (some cmd), { lf with reader_pos := offset + 1 })
  | none => (.ok none, { lf with reader_pos := offset })

/-- The in-memory index, `std::collections::HashMap<String, Offset>` in
`store.rs`, as an association list whose keys are pairwise distinct (insert
overwrites). -/
abbrev Index := List (String × Offset)

/-- Lookup, `HashMap::get`. -/
def Index.find (idx : Index) (k : String) : Option Offset :=
  (idx.find? (fun p => p.1 == k)).map Prod.snd

/-- Insertion, `HashMap::insert`: overwrites any existing entry for the key. -/
def Index.insert (idx : Index) (k : String) (off : Offset) : Index :=
  (k, off) :: idx.filter (fun p => p.1 != k)

/-- Type `IndexedLogFile` from `store.rs`. -/
structure IndexedLogFile where
  log_file : LogFile
  index : Index
deriving DecidableEq, Repr

/-- The scanning loop of `IndexedLogFile::build_index`: walks the records from
`off`, inserting `cmd.key ↦ start offset` for each. -/
def scanIndex : Index → Offset → List Command → Index
  | idx, _, [] => idx
  | idx, off, cmd :: rest => scanIndex (Index.insert idx cmd.key off) (off + 1) rest

/-- Function `IndexedLogFile::build_index` from `store.rs`: seeks the reader to 0,
streams every record inserting `(cmd.key → start_offset)`, and sets
`num_writes` to the number of records scanned; the reader ends at
end-of-file. -/
def IndexedLogFile.build_index (s : IndexedLogFile) : IndexedLogFile :=
  { log_file :=
      { file := s.log_file.file
        reader_pos := s.log_file.file.length
        position := s.log_file.position
        num_writes := s.log_file.file.length }
    index := scanIndex s.index 0 s.log_file.file }

/-- Function `IndexedLogFile::new` from `store.rs`: a fresh `LogFile` over the disk
content, an empty index, then `build_index`. -/
def IndexedLogFile.new (disk : List Command) : IndexedLogFile :=
  IndexedLogFile.build_index { log_file := LogFile.new disk, index := [] }

/-- Function `IndexedLogFile::read` from `store.rs`: look the key up in the index
(`KeyNotFound` when absent), then `read_cmd` at the recorded offset. -/
def IndexedLogFile.read (s : IndexedLogFile) (key : String) :
    Except KvStoreError (Option Command) × IndexedLogFile :=
  match Index.find s.index key with
  | none => (.error .KeyNotFound, s)
  | some offset =>
      let r := s.log_file.read_cmd offset
      (r.1, { s with log_file := r.2 })

/-- Function `IndexedLogFile::write` from `store.rs`: append via the log file, then
point the index at the returned offset. -/
def IndexedLogFile.write (s : IndexedLogFile) (cmd : Command) : IndexedLogFile :=
  let key := cmd.key
  let r := s.log_file.write_cmd cmd
  { log_file := r.1, index := Index.insert s.index key r.2 }

/-- Function `KvStore::get` from `store.rs`: read through the index, map the semantic
`KeyNotFound` to `none`, and project the command's value. -/
def KvStore.get (s : IndexedLogFile) (k : String) :
    Except KvStoreError (Option String) × IndexedLogFile :=
  let r := IndexedLogFile.read s k
  match r.1 with
  | .error .KeyNotFound => (.ok none, r.2)
  | .error e => (.error e, r.2)
  | .ok (some cmd) => (.ok cmd.value, r.2)
  | .ok none => (.ok none, r.2)

/-- Function `KvStore::should_compact` from `store.rs`. -/
def KvStore.should_compact (s : IndexedLogFile) : Bool :=
  let index_size := s.index.length
  let num_writes := s.log_file.num_writes
  num_writes > 2 * index_size

/-- The copy loop of `KvStore::compact_log`: for each key of the snapshotted
index, read the latest command from the live log (whatever variant it is) and
write it into the temporary log.  The live state `s` is threaded because each
`read` moves its reader cursor. -/
def compactLoop (s tmp : IndexedLogFile) :
    List (String × Offset) → Except KvStoreError (IndexedLogFile × IndexedLogFile)
  | [] => .ok (s, tmp)
  | (k, _) :: rest =>
      let r := IndexedLogFile.read s k
      match r.1 with
      | .error e => .error e
      | .ok none => .error .KeyNotFound
      | .ok (some cmd) => compactLoop r.2 (IndexedLogFile.write tmp cmd) rest

/-- Function `KvStore::compact_log` from `store.rs`: snapshot the index, open a fresh
`IndexedLogFile` over an empty temporary directory, copy the latest command of
every indexed key into it, rename the temporary `db` over the live `db`, and
re-open the live path (rebuilding the index from the renamed file). -/
def KvStore.compact_log (s : IndexedLogFile) : Except KvStoreError IndexedLogFile :=
  let old_index := s.index
  let tmp_indexed_log := IndexedLogFile.new []
  match compactLoop s tmp_indexed_log old_index with
  | .error e => .error e
  | .ok r => .ok (IndexedLogFile.new r.2.log_file.file)

/-- Function `KvStore::set` from `store.rs`: append unconditionally, then compact if
the predicate holds on the post-write state. -/
def KvStore.set (s : IndexedLogFile) (k v : String) :
    Except KvStoreError IndexedLogFile :=
  let s1 := IndexedLogFile.write s (Command.Set k v)
  if KvStore.should_compact s1 then KvStore.compact_log s1 else .ok s1

/-- Function `KvStore::remove` from `store.rs`: read through the index (propagating
`KeyNotFound` when the key is absent from the index), error when the read
yields no command, otherwise append a `Remove` record. -/
def KvStore.remove (s : IndexedLogFile) (k : String) :
    Except KvStoreError Unit × IndexedLogFile :=
  let r := IndexedLogFile.read s k
  match r.1 with
  | .error e => (.error e, r.2)
  | .ok none => (.error .KeyNotFound, r.2)
  | .ok (some _) => (.ok (), IndexedLogFile.write r.2 (Command.Remove k))

/-- Type `Req` from `network/mod.rs`. -/
inductive Req where
  | Get (k : String)
  | Set (k v : String)
  | Remove (k : String)
deriving DecidableEq, Repr

/-- Type `SuccResp` from `network/mod.rs`. -/
inductive SuccResp where
  | Get (v : Option String)
  | Set
  | Remove
deriving DecidableEq, Repr

/-- Type `network::Error` from `network/mod.rs`. -/
inductive NetError where
  | Server (msg : String)
deriving DecidableEq, Repr

/-- Alias `Resp` from `network/mod.rs`. -/
abbrev Resp := Except NetError SuccResp

/-- Function `handle` from `server.rs`: dispatch the request to the engine and map any
engine error to `Server(message)` through its display form.  The post-state of
the shared store is returned alongside the wire response (on a failed `set`
no state transition is observable in the model, as the model's `set` only
fails inside compaction, whose error branches are dead on in-memory state). -/
def handle (s : IndexedLogFile) (req : Req) : Resp × IndexedLogFile :=
  match req with
  | .Get k =>
      let r := KvStore.get s k
      (match r.1 with
       | .ok v => .ok (SuccResp.Get v)
       | .error e => .error (NetError.Server e.display), r.2)
  | .Set k v =>
      match KvStore.set s k v with
      | .ok s1 => (.ok SuccResp.Set, s1)
      | .error e => (.error (NetError.Server e.display), s)
  | .Remove k =>
      let r := KvStore.remove s k
      (match r.1 with
       | .ok _ => .ok SuccResp.Remove
       | .error e => .error (NetError.Server e.display), r.2)

/-- Variant of `compact_log` with another handle's operation interleaved between the
index snapshot and the copy loop.  Translated from the lock structure of
`KvStore::compact_log` in `store.rs`: every `self.indexed_log_file.lock()`
guard there is a temporary dropped at the end of its own statement (the
snapshot, each per-key read of the loop, and the final installation are each a
separate critical section, and the rename runs under no lock), so between the
snapshot statement and the loop the mutex is free and an operation of another
`KvStore` clone can run; `interfere` is that operation's effect on the shared
state. -/
def KvStore.compact_log_interleaved (s : IndexedLogFile)
    (interfere : IndexedLogFile → IndexedLogFile) :
    Except KvStoreError IndexedLogFile :=
  let old_index := s.index
  let tmp_indexed_log := IndexedLogFile.new []
  let s1 := interfere s
  match compactLoop s1 tmp_indexed_log old_index with
  | .error e => .error e
  | .ok r => .ok (IndexedLogFile.new r.2.log_file.file)

/-! ### Specification-side notions

These definitions follow the spec's wording ("latest record", "live key") and
are used to state the claims; they are compared against the embedded code. -/

/-- The latest record for `k`: the last record of the file whose key is `k`
(the spec's "live record for key k"). -/
def latestCmd (file : List Command) (k : String) : Option Command :=
  (file.filter (fun c => c.key == k)).getLast?

/-- The position (in record units) of the latest record for `k`, `none` when
no record mentions `k`. -/
def lastKeyIdx : List Command → String → Option Nat
  | [], _ => none
  | c :: rest, k =>
      match lastKeyIdx rest k with
      | some i => some (i + 1)
      | none => if c.key == k then some 0 else none

/-- The content the copy loop of `compact_log` produces: the latest command of
every indexed key, in index iteration order. -/
def compactedFile (s : IndexedLogFile) : List Command :=
  s.index.filterMap (fun p => latestCmd s.log_file.file p.1)

/-- Writing a list of commands in order (the shape of the compaction loop's
effect on the temporary log). -/
def writeAll (tmp : IndexedLogFile) : List Command → IndexedLogFile
  | [] => tmp
  | c :: cs => writeAll (IndexedLogFile.write tmp c) cs

/-- Well-formedness of an in-memory store state: the index maps each key to
the position of its latest record (and only mentions keys the file mentions),
index keys are pairwise distinct, the write position is at end-of-file, and
`num_writes` counts the records of the file. -/
structure WF (s : IndexedLogFile) : Prop where
  find_eq : ∀ k, Index.find s.index k = lastKeyIdx s.log_file.file k
  nodupKeys : (s.index.map Prod.fst).Nodup
  pos_eq : s.log_file.position = s.log_file.file.length
  nw_eq : s.log_file.num_writes = s.log_file.file.length

/-- States reachable through the public interface: opening any directory
(whose `db` holds some record sequence) and running `get`/`set`/`remove`. -/
inductive Reachable : IndexedLogFile → Prop where
  | opened (disk : List Command) : Reachable (IndexedLogFile.new disk)
  | set {s s' : IndexedLogFile} (k v : String) :
      Reachable s → KvStore.set s k v = .ok s' → Reachable s'
  | get {s : IndexedLogFile} (k : String) :
      Reachable s → Reachable (KvStore.get s k).2
  | remove {s : IndexedLogFile} (k : String) :
      Reachable s → Reachable (KvStore.remove s k).2

/-! ### Lemmas about the index -/

theorem find?_filter_of_imp {α} (p q : α → Bool) (l : List α)
    (h : ∀ a, p a = true → q a = true) :
    (l.filter q).find? p = l.find? p := by
  induction l with
  | nil => rfl
  | cons a l ih =>
      by_cases hq : q a = true
      · rw [List.filter_cons_of_pos hq]
        by_cases hp : p a = true
        · rw [List.find?_cons_of_pos _ hp, List.find?_cons_of_pos _ hp]
        · rw [List.find?_cons_of_neg _ hp, List.find?_cons_of_neg _ hp, ih]
      · have hp : ¬ p a = true := fun hpa => hq (h a hpa)
        rw [List.filter_cons_of_neg (by simpa using hq),
          List.find?_cons_of_neg _ hp, ih]

theorem Index.find_insert (idx : Index) (k : String) (off : Offset) (k' : String) :
    Index.find (Index.insert idx k off) k' =
      if k' = k then some off else Index.find idx k' := by
  by_cases h : k' = k
  · subst h
    simp [Index.find, Index.insert]
  · have hne : ¬ ((k, off).1 == k') = true := by
      simpa using fun e => h e.symm
    have himp : ∀ p : String × Offset, (p.1 == k') = true → (p.1 != k) = true := by
      intro p hp
      have hp' : p.1 = k' := by simpa using hp
      simp [bne, hp', h]
    unfold Index.find Index.insert
    rw [if_neg h]
    have hstep : List.find? (fun p : String × Offset => p.1 == k')
        ((k, off) :: List.filter (fun p => p.1 != k) idx)
        = List.find? (fun p : String × Offset => p.1 == k')
            (List.filter (fun p => p.1 != k) idx) := by
      simp [List.find?_cons, show (k == k') = false from by simpa using fun e => h e.symm]
    rw [hstep, find?_filter_of_imp _ _ _ himp]

theorem Index.find_eq_none_iff (idx : Index) (k : String) :
    Index.find idx k = none ↔ k ∉ idx.map Prod.fst := by
  constructor
  · intro h hk
    rcases List.mem_map.mp hk with ⟨p, hp, hpk⟩
    have hfind : List.find? (fun q => q.1 == k) idx = none := by
      cases hfind : List.find? (fun q => q.1 == k) idx with
      | none => rfl
      | some q =>
          unfold Index.find at h
          rw [hfind] at h
          simp at h
    have := List.find?_eq_none.mp hfind p hp
    exact this (by simpa using hpk)
  · intro h
    have hfind : List.find? (fun q => q.1 == k) idx = none := by
      apply List.find?_eq_none.mpr
      intro p hp hpk
      exact h (List.mem_map.mpr ⟨p, hp, by simpa using hpk⟩)
    simp [Index.find, hfind]

theorem Index.keys_insert (idx : Index) (k : String) (off : Offset) :
    (Index.insert idx k off).map Prod.fst =
      k :: (idx.filter (fun p => p.1 != k)).map Prod.fst := rfl

theorem Index.nodup_keys_insert (idx : Index) (k : String) (off : Offset)
    (h : (idx.map Prod.fst).Nodup) :
    ((Index.insert idx k off).map Prod.fst).Nodup := by
  rw [Index.keys_insert]
  refine List.nodup_cons.mpr ⟨?_, ?_⟩
  · intro hmem
    rcases List.mem_map.mp hmem with ⟨p, hp, hpk⟩
    have hfilt := List.of_mem_filter hp
    rw [hpk] at hfilt
    simp [bne] at hfilt
  · exact h.sublist ((List.filter_sublist idx).map Prod.fst)

theorem Index.length_insert_of_not_mem (idx : Index) (k : String) (off : Offset)
    (h : k ∉ idx.map Prod.fst) :
    (Index.insert idx k off).length = idx.length + 1 := by
  have hfix : idx.filter (fun p => p.1 != k) = idx := by
    apply List.filter_eq_self.mpr
    intro p hp
    have hne : p.1 ≠ k := fun e => h (List.mem_map.mpr ⟨p, hp, e⟩)
    simp [bne, hne]
  simp [Index.insert, hfix]

theorem Index.mem_keys_insert {idx : Index} {k : String} {off : Offset} {k' : String}
    (h : k' ∈ (Index.insert idx k off).map Prod.fst) :
    k' = k ∨ k' ∈ idx.map Prod.fst := by
  rw [Index.keys_insert] at h
  rcases List.mem_cons.mp h with h | h
  · exact Or.inl h
  · rcases List.mem_map.mp h with ⟨p, hp, hpk⟩
    exact Or.inr (List.mem_map.mpr ⟨p, List.mem_of_mem_filter hp, hpk⟩)

/-! ### Lemmas about latest records -/

theorem lastKeyIdx_concat (l : List Command) (c : Command) (k : String) :
    lastKeyIdx (l ++ [c]) k =
      if c.key == k then some l.length else lastKeyIdx l k := by
  induction l with
  | nil =>
      by_cases h : c.key == k <;> simp [lastKeyIdx, h]
  | cons d l ih =>
      rw [List.cons_append]
      show (match lastKeyIdx (l ++ [c]) k with
            | some i => some (i + 1)
            | none => if d.key == k then some 0 else none) = _
      rw [ih]
      by_cases h : c.key == k
      · simp [h]
      · simp only [h, if_false, Bool.false_eq_true]
        rfl

theorem lastKeyIdx_lt {l : List Command} {k : String} {i : Nat}
    (h : lastKeyIdx l k = some i) : i < l.length := by
  induction l generalizing i with
  | nil => simp [lastKeyIdx] at h
  | cons c l ih =>
      rw [show lastKeyIdx (c :: l) k = (match lastKeyIdx l k with
            | some i => some (i + 1)
            | none => if c.key == k then some 0 else none) from rfl] at h
      cases hl : lastKeyIdx l k with
      | some j =>
          rw [hl] at h
          simp only [Option.some.injEq] at h
          subst h
          exact Nat.succ_lt_succ (ih hl)
      | none =>
          rw [hl] at h
          by_cases hc : c.key == k
          · simp [hc] at h
            subst h
            exact Nat.succ_pos _
          · simp [hc] at h

theorem latestCmd_concat (l : List Command) (c : Command) (k : String) :
    latestCmd (l ++ [c]) k = if c.key == k then some c else latestCmd l k := by
  unfold latestCmd
  rw [List.filter_append]
  by_cases h : c.key == k
  · simp [h, List.getLast?_concat]
  · simp [h]

theorem latestCmd_eq_none_iff (l : List Command) (k : String) :
    latestCmd l k = none ↔ k ∉ l.map Command.key := by
  induction l using List.reverseRecOn with
  | nil => simp [latestCmd]
  | append_singleton l c ih =>
      rw [latestCmd_concat]
      by_cases h : c.key == k
      · have hk : c.key = k := by simpa using h
        have hmem : k ∈ (l ++ [c]).map Command.key := by simp [hk]
        rw [if_pos h]
        constructor
        · intro hnone
          exact absurd hnone (by simp)
        · intro hnot
          exact (hnot hmem).elim
      · have hk : ¬ c.key = k := by simpa using h
        rw [if_neg (by simpa using hk), ih]
        constructor
        · intro hnot hk2
          rcases (by simpa using hk2 : k ∈ l.map Command.key ∨ k = c.key) with h2 | h2
          · exact hnot h2
          · exact hk h2.symm
        · intro hnot hk2
          exact hnot (by simp [hk2])

theorem lastKeyIdx_eq_none_iff (l : List Command) (k : String) :
    lastKeyIdx l k = none ↔ latestCmd l k = none := by
  induction l using List.reverseRecOn with
  | nil => simp [lastKeyIdx, latestCmd]
  | append_singleton l c ih =>
      rw [lastKeyIdx_concat, latestCmd_concat]
      by_cases h : c.key == k <;> simp [h, ih]

theorem latestCmd_key {l : List Command} {k : String} {c : Command}
    (h : latestCmd l k = some c) : c.key = k := by
  induction l using List.reverseRecOn with
  | nil => simp [latestCmd] at h
  | append_singleton l d ih =>
      rw [latestCmd_concat] at h
      by_cases hd : d.key == k
      · simp only [hd, if_true] at h
        cases h
        simpa using hd
      · simp only [hd, Bool.false_eq_true, if_false] at h
        exact ih h

theorem lastKeyIdx_getElem {l : List Command} {k : String} {i : Nat}
    (h : lastKeyIdx l k = some i) : l[i]? = latestCmd l k := by
  induction l using List.reverseRecOn generalizing i with
  | nil => simp [lastKeyIdx] at h
  | append_singleton l c ih =>
      rw [lastKeyIdx_concat] at h
      rw [latestCmd_concat]
      by_cases hc : c.key == k
      · simp only [hc, if_true] at h ⊢
        cases h
        simp
      · simp only [hc, Bool.false_eq_true, if_false] at h ⊢
        have hlt := lastKeyIdx_lt h
        rw [List.getElem?_append, if_pos hlt]
        exact ih h

/-! ### Lemmas about the scan that rebuilds the index -/

theorem scanIndex_find (file : List Command) :
    ∀ (idx : Index) (off : Offset) (k : String),
      Index.find (scanIndex idx off file) k =
        match lastKeyIdx file k with
        | some i => some (off + i)
        | none => Index.find idx k := by
  induction file with
  | nil => intro idx off k; rfl
  | cons cmd rest ih =>
      intro idx off k
      show Index.find (scanIndex (Index.insert idx cmd.key off) (off + 1) rest) k = _
      rw [ih]
      cases hr : lastKeyIdx rest k with
      | some i =>
          show some (off + 1 + i) = _
          rw [show lastKeyIdx (cmd :: rest) k = (match lastKeyIdx rest k with
                | some i => some (i + 1)
                | none => if cmd.key == k then some 0 else none) from rfl, hr]
          show some (off + 1 + i) = some (off + (i + 1))
          exact congrArg some (by rw [Nat.add_assoc, Nat.add_comm 1 i])
      | none =>
          rw [Index.find_insert]
          rw [show lastKeyIdx (cmd :: rest) k = (match lastKeyIdx rest k with
                | some i => some (i + 1)
                | none => if cmd.key == k then some 0 else none) from rfl, hr]
          by_cases hk : k = cmd.key
          · have : (cmd.key == k) = true := by simpa using hk.symm
            simp [hk, this]
          · have : (cmd.key == k) = false := by simpa using fun e => hk e.symm
            simp [hk, this]

theorem scanIndex_nodup (file : List Command) :
    ∀ (idx : Index) (off : Offset), (idx.map Prod.fst).Nodup →
      ((scanIndex idx off file).map Prod.fst).Nodup := by
  induction file with
  | nil => intro idx off h; exact h
  | cons cmd rest ih =>
      intro idx off h
      exact ih _ _ (Index.nodup_keys_insert _ _ _ h)

theorem scanIndex_length (file : List Command) :
    ∀ (idx : Index) (off : Offset), (file.map Command.key).Nodup →
      (∀ k ∈ file.map Command.key, k ∉ idx.map Prod.fst) →
      (scanIndex idx off file).length = idx.length + file.length := by
  induction file with
  | nil => intro idx off _ _; rfl
  | cons cmd rest ih =>
      intro idx off hnd hdisj
      have hhead : cmd.key ∉ idx.map Prod.fst :=
        hdisj cmd.key (by simp)
      have hnd' : (rest.map Command.key).Nodup := (List.nodup_cons.mp hnd).2
      have hdisj' : ∀ k ∈ rest.map Command.key,
          k ∉ (Index.insert idx cmd.key off).map Prod.fst := by
        intro k hk hmem
        rcases Index.mem_keys_insert hmem with h | h
        · exact (List.nodup_cons.mp hnd).1 (h ▸ hk)
        · exact hdisj k (List.mem_cons_of_mem _ hk) h
      show (scanIndex (Index.insert idx cmd.key off) (off + 1) rest).length = _
      rw [ih _ _ hnd' hdisj', Index.length_insert_of_not_mem _ _ _ hhead]
      simp [Nat.add_assoc, Nat.add_comm 1]

/-! ### Projections of `new` and `write` -/

theorem new_file (disk : List Command) :
    (IndexedLogFile.new disk).log_file.file = disk := rfl

theorem new_num_writes (disk : List Command) :
    (IndexedLogFile.new disk).log_file.num_writes = disk.length := rfl

theorem new_position (disk : List Command) :
    (IndexedLogFile.new disk).log_file.position = disk.length := rfl

theorem new_index (disk : List Command) :
    (IndexedLogFile.new disk).index = scanIndex [] 0 disk := rfl

theorem write_file (s : IndexedLogFile) (cmd : Command) :
    (IndexedLogFile.write s cmd).log_file.file = s.log_file.file ++ [cmd] := rfl

theorem write_index (s : IndexedLogFile) (cmd : Command) :
    (IndexedLogFile.write s cmd).index =
      Index.insert s.index cmd.key s.log_file.position := rfl

theorem write_position (s : IndexedLogFile) (cmd : Command) :
    (IndexedLogFile.write s cmd).log_file.position = s.log_file.position + 1 := rfl

theorem write_num_writes (s : IndexedLogFile) (cmd : Command) :
    (IndexedLogFile.write s cmd).log_file.num_writes = s.log_file.num_writes + 1 := rfl

/-! ### Well-formedness is established by `open` and preserved by the ops -/

theorem wf_new (disk : List Command) : WF (IndexedLogFile.new disk) := by
  refine ⟨?_, ?_, rfl, rfl⟩
  · intro k
    rw [new_index, new_file, scanIndex_find]
    cases h : lastKeyIdx disk k with
    | some i => simp
    | none => rfl
  · rw [new_index]
    exact scanIndex_nodup _ _ _ List.nodup_nil

theorem wf_write {s : IndexedLogFile} (cmd : Command) (hwf : WF s) :
    WF (IndexedLogFile.write s cmd) := by
  refine ⟨?_, ?_, ?_, ?_⟩
  · intro k
    rw [write_index, write_file, Index.find_insert, lastKeyIdx_concat, hwf.pos_eq]
    by_cases h : k = cmd.key
    · rw [if_pos h, if_pos (by simpa using h.symm)]
    · rw [if_neg h, if_neg (by simpa using fun e : cmd.key = k => h e.symm), hwf.find_eq]
  · rw [write_index]
    exact Index.nodup_keys_insert _ _ _ hwf.nodupKeys
  · rw [write_position, write_file, hwf.pos_eq]
    simp
  · rw [write_num_writes, write_file, hwf.nw_eq]
    simp

/-! ### Characterization of `read` -/

theorem read_eq (s : IndexedLogFile) (k : String) :
    IndexedLogFile.read s k =
      match Index.find s.index k with
      | none => (.error .KeyNotFound, s)
      | some off =>
          match s.log_file.file[off]? with
          | some c => (.ok (some c),
              { s with log_file := { s.log_file with reader_pos := off + 1 } })
          | none => (.ok none,
              { s with log_file := { s.log_file with reader_pos := off } }) := by
  cases h : Index.find s.index k with
  | none => simp [IndexedLogFile.read, LogFile.read_cmd, h]
  | some off =>
      cases hg : s.log_file.file[off]? with
      | some c => simp [IndexedLogFile.read, LogFile.read_cmd, h, hg]
      | none => simp [IndexedLogFile.read, LogFile.read_cmd, h, hg]

theorem read_snd_file (s : IndexedLogFile) (k : String) :
    ((IndexedLogFile.read s k).2).log_file.file = s.log_file.file := by
  cases h : Index.find s.index k with
  | none => simp [IndexedLogFile.read, h]
  | some off =>
      cases hg : s.log_file.file[off]? <;>
        simp [IndexedLogFile.read, LogFile.read_cmd, h, hg]

theorem read_snd_index (s : IndexedLogFile) (k : String) :
    ((IndexedLogFile.read s k).2).index = s.index := by
  cases h : Index.find s.index k with
  | none => simp [IndexedLogFile.read, h]
  | some off =>
      cases hg : s.log_file.file[off]? <;>
        simp [IndexedLogFile.read, LogFile.read_cmd, h, hg]

theorem read_snd_position (s : IndexedLogFile) (k : String) :
    ((IndexedLogFile.read s k).2).log_file.position = s.log_file.position := by
  cases h : Index.find s.index k with
  | none => simp [IndexedLogFile.read, h]
  | some off =>
      cases hg : s.log_file.file[off]? <;>
        simp [IndexedLogFile.read, LogFile.read_cmd, h, hg]

theorem read_snd_num_writes (s : IndexedLogFile) (k : String) :
    ((IndexedLogFile.read s k).2).log_file.num_writes = s.log_file.num_writes := by
  cases h : Index.find s.index k with
  | none => simp [IndexedLogFile.read, h]
  | some off =>
      cases hg : s.log_file.file[off]? <;>
        simp [IndexedLogFile.read, LogFile.read_cmd, h, hg]

theorem wf_read_snd {s : IndexedLogFile} (k : String) (hwf : WF s) :
    WF ((IndexedLogFile.read s k).2) := by
  refine ⟨?_, ?_, ?_, ?_⟩
  · intro k'
    rw [read_snd_index, read_snd_file]
    exact hwf.find_eq k'
  · rw [read_snd_index]
    exact hwf.nodupKeys
  · rw [read_snd_position, read_snd_file]
    exact hwf.pos_eq
  · rw [read_snd_num_writes, read_snd_file]
    exact hwf.nw_eq

theorem read_fst_eq {s : IndexedLogFile} (hwf : WF s) (k : String) :
    (IndexedLogFile.read s k).1 =
      match latestCmd s.log_file.file k with
      | none => .error .KeyNotFound
      | some c => .ok (some c) := by
  rw [read_eq, hwf.find_eq k]
  cases h : lastKeyIdx s.log_file.file k with
  | none =>
      rw [(lastKeyIdx_eq_none_iff _ _).mp h]
  | some off =>
      have hget := lastKeyIdx_getElem h
      cases hc : latestCmd s.log_file.file k with
      | none =>
          rw [← lastKeyIdx_eq_none_iff] at hc
          rw [hc] at h
          cases h
      | some c =>
          rw [hc] at hget
          simp [hget]

/-! ### Characterization of the public operations -/

theorem get_snd_eq (s : IndexedLogFile) (k : String) :
    (KvStore.get s k).2 = (IndexedLogFile.read s k).2 := by
  simp only [KvStore.get]
  cases h : (IndexedLogFile.read s k).1 with
  | error e => cases e <;> simp [h]
  | ok o => cases o <;> simp [h]

theorem get_fst_eq {s : IndexedLogFile} (hwf : WF s) (k : String) :
    (KvStore.get s k).1 = .ok ((latestCmd s.log_file.file k).bind Command.value) := by
  have hr := read_fst_eq hwf k
  simp only [KvStore.get]
  cases hc : latestCmd s.log_file.file k with
  | none =>
      rw [hc] at hr
      simp [hr]
  | some c =>
      rw [hc] at hr
      simp [hr]

theorem remove_eq {s : IndexedLogFile} (hwf : WF s) (k : String) :
    KvStore.remove s k =
      match latestCmd s.log_file.file k with
      | none => (.error .KeyNotFound, (IndexedLogFile.read s k).2)
      | some _ =>
          (.ok (), IndexedLogFile.write (IndexedLogFile.read s k).2 (Command.Remove k)) := by
  have hr := read_fst_eq hwf k
  simp only [KvStore.remove]
  cases hc : latestCmd s.log_file.file k with
  | none =>
      rw [hc] at hr
      simp [hr]
  | some c =>
      rw [hc] at hr
      simp [hr]

theorem set_eq (s : IndexedLogFile) (k v : String) :
    KvStore.set s k v =
      if KvStore.should_compact (IndexedLogFile.write s (Command.Set k v))
      then KvStore.compact_log (IndexedLogFile.write s (Command.Set k v))
      else .ok (IndexedLogFile.write s (Command.Set k v)) := rfl

/-! ### The compaction loop -/

theorem writeAll_file (L : List Command) :
    ∀ tmp : IndexedLogFile,
      (writeAll tmp L).log_file.file = tmp.log_file.file ++ L := by
  induction L with
  | nil => intro tmp; simp [writeAll]
  | cons c cs ih =>
      intro tmp
      show (writeAll (IndexedLogFile.write tmp c) cs).log_file.file = _
      rw [ih, write_file, List.append_assoc]
      rfl

theorem mem_index_latest {s : IndexedLogFile} (hwf : WF s) {p : String × Offset}
    (hp : p ∈ s.index) : ∃ c, latestCmd s.log_file.file p.1 = some c := by
  have hne : Index.find s.index p.1 ≠ none := by
    intro h
    exact (Index.find_eq_none_iff _ _).mp h (List.mem_map.mpr ⟨p, hp, rfl⟩)
  rw [hwf.find_eq] at hne
  cases hc : latestCmd s.log_file.file p.1 with
  | some c => exact ⟨c, rfl⟩
  | none =>
      rw [← lastKeyIdx_eq_none_iff] at hc
      exact (hne hc).elim

theorem compactLoop_ok :
    ∀ (entries : List (String × Offset)) (s tmp : IndexedLogFile), WF s →
      (∀ p ∈ entries, ∃ c, latestCmd s.log_file.file p.1 = some c) →
      ∃ s1, compactLoop s tmp entries =
        .ok (s1, writeAll tmp
          (entries.filterMap (fun p => latestCmd s.log_file.file p.1))) := by
  intro entries
  induction entries with
  | nil =>
      intro s tmp _ _
      exact ⟨s, rfl⟩
  | cons p rest ih =>
      intro s tmp hwf hall
      obtain ⟨k, off⟩ := p
      obtain ⟨c, hc⟩ := hall (k, off) (List.mem_cons_self _ _)
      have hr : (IndexedLogFile.read s k).1 = .ok (some c) := by
        rw [read_fst_eq hwf, hc]
      have hfile : ((IndexedLogFile.read s k).2).log_file.file = s.log_file.file :=
        read_snd_file s k
      have hwf' : WF ((IndexedLogFile.read s k).2) := wf_read_snd k hwf
      have hall' : ∀ q ∈ rest, ∃ c2,
          latestCmd ((IndexedLogFile.read s k).2).log_file.file q.1 = some c2 := by
        intro q hq
        rw [hfile]
        exact hall q (List.mem_cons_of_mem _ hq)
      obtain ⟨s1, hs1⟩ :=
        ih ((IndexedLogFile.read s k).2) (IndexedLogFile.write tmp c) hwf' hall'
      refine ⟨s1, ?_⟩
      simp only [compactLoop, hr]
      have hmaps : (rest.filterMap
            (fun q => latestCmd ((IndexedLogFile.read s k).2).log_file.file q.1))
          = rest.filterMap (fun q => latestCmd s.log_file.file q.1) := by
        simp only [hfile]
      rw [hs1, hmaps]
      have hcons : (((k, off) :: rest).filterMap
            (fun p => latestCmd s.log_file.file p.1))
          = c :: rest.filterMap (fun p => latestCmd s.log_file.file p.1) := by
        simp [List.filterMap_cons, hc]
      rw [hcons]
      rfl

theorem compact_log_eq {s : IndexedLogFile} (hwf : WF s) :
    KvStore.compact_log s = .ok (IndexedLogFile.new (compactedFile s)) := by
  have hall : ∀ p ∈ s.index, ∃ c, latestCmd s.log_file.file p.1 = some c :=
    fun p hp => mem_index_latest hwf hp
  obtain ⟨s1, hs1⟩ := compactLoop_ok s.index s (IndexedLogFile.new []) hwf hall
  simp only [KvStore.compact_log]
  rw [hs1]
  simp [writeAll_file, compactedFile, new_file]

/-! ### Properties of the compacted content -/

theorem filterMap_latest_keys (file : List Command) :
    ∀ l : List (String × Offset),
      (∀ p ∈ l, ∃ c, latestCmd file p.1 = some c) →
      (l.filterMap (fun p => latestCmd file p.1)).map Command.key = l.map Prod.fst := by
  intro l
  induction l with
  | nil => intro _; rfl
  | cons p rest ih =>
      intro hall
      obtain ⟨c, hc⟩ := hall p (List.mem_cons_self _ _)
      simp only [List.filterMap_cons, hc, List.map_cons]
      rw [latestCmd_key hc, ih (fun q hq => hall q (List.mem_cons_of_mem _ hq))]

theorem compactedFile_keys {s : IndexedLogFile} (hwf : WF s) :
    (compactedFile s).map Command.key = s.index.map Prod.fst :=
  filterMap_latest_keys _ _ (fun _ hp => mem_index_latest hwf hp)

theorem compactedFile_nodup_keys {s : IndexedLogFile} (hwf : WF s) :
    ((compactedFile s).map Command.key).Nodup := by
  rw [compactedFile_keys hwf]
  exact hwf.nodupKeys

theorem latest_mem_compactedFile {s : IndexedLogFile} (hwf : WF s) {k : String}
    {c : Command} (hc : latestCmd s.log_file.file k = some c) :
    c ∈ compactedFile s := by
  have hne : latestCmd s.log_file.file k ≠ none := by simp [hc]
  have hfind : Index.find s.index k ≠ none := by
    rw [hwf.find_eq]
    intro h
    exact hne ((lastKeyIdx_eq_none_iff _ _).mp h)
  have hkmem : k ∈ s.index.map Prod.fst := by
    by_contra hk
    exact hfind ((Index.find_eq_none_iff _ _).mpr hk)
  rcases List.mem_map.mp hkmem with ⟨p, hp, hpk⟩
  exact List.mem_filterMap.mpr ⟨p, hp, by rw [hpk, hc]⟩

theorem compactedFile_latest {s : IndexedLogFile} {c : Command}
    (hc : c ∈ compactedFile s) : latestCmd s.log_file.file c.key = some c := by
  rcases List.mem_filterMap.mp hc with ⟨p, hp, hpc⟩
  have hk := latestCmd_key hpc
  rw [hk]
  exact hpc

theorem filter_key_of_nodup :
    ∀ (F : List Command), (F.map Command.key).Nodup → ∀ c ∈ F,
      F.filter (fun d => d.key == c.key) = [c] := by
  intro F
  induction F with
  | nil => intro _ c hc; cases hc
  | cons d rest ih =>
      intro hnd c hc
      rcases List.mem_cons.mp hc with h | h
      · subst h
        rw [List.filter_cons_of_pos (by simp)]
        have hrest : rest.filter (fun e => e.key == c.key) = [] := by
          apply List.filter_eq_nil_iff.mpr
          intro e he heq
          have : e.key = c.key := by simpa using heq
          exact (List.nodup_cons.mp hnd).1 (this ▸ List.mem_map.mpr ⟨e, he, rfl⟩)
        rw [hrest]
      · have hne : d.key ≠ c.key := by
          intro e
          exact (List.nodup_cons.mp hnd).1 (e ▸ List.mem_map.mpr ⟨c, h, rfl⟩)
        rw [List.filter_cons_of_neg (by simpa using hne)]
        exact ih (List.nodup_cons.mp hnd).2 c h

theorem latestCmd_of_nodup {F : List Command} (hnd : (F.map Command.key).Nodup)
    {c : Command} (hc : c ∈ F) : latestCmd F c.key = some c := by
  unfold latestCmd
  rw [filter_key_of_nodup F hnd c hc]
  rfl

theorem compact_preserves_latest {s s2 : IndexedLogFile} (hwf : WF s)
    (h : KvStore.compact_log s = .ok s2) (k : String) :
    latestCmd s2.log_file.file k = latestCmd s.log_file.file k := by
  rw [compact_log_eq hwf] at h
  have hs2 : IndexedLogFile.new (compactedFile s) = s2 := Except.ok.inj h
  subst hs2
  rw [new_file]
  have hknd : ((compactedFile s).map Command.key).Nodup := compactedFile_nodup_keys hwf
  cases hc : latestCmd s.log_file.file k with
  | some c =>
      have hmem := latest_mem_compactedFile hwf hc
      have hres := latestCmd_of_nodup hknd hmem
      rw [latestCmd_key hc] at hres
      exact hres
  | none =>
      rw [latestCmd_eq_none_iff] at hc ⊢
      rw [compactedFile_keys hwf]
      intro hmem
      have hfind : Index.find s.index k ≠ none := by
        intro hf
        exact (Index.find_eq_none_iff _ _).mp hf hmem
      rw [hwf.find_eq] at hfind
      apply hfind
      rw [lastKeyIdx_eq_none_iff, latestCmd_eq_none_iff]
      exact hc

/-! ### Every reachable state is well-formed -/

theorem set_wf {s s' : IndexedLogFile} (k v : String) (hwf : WF s)
    (h : KvStore.set s k v = .ok s') : WF s' := by
  rw [set_eq] at h
  by_cases hcp : KvStore.should_compact (IndexedLogFile.write s (Command.Set k v))
  · rw [if_pos hcp, compact_log_eq (wf_write _ hwf)] at h
    rw [← Except.ok.inj h]
    exact wf_new _
  · rw [if_neg hcp] at h
    rw [← Except.ok.inj h]
    exact wf_write _ hwf

theorem get_wf {s : IndexedLogFile} (k : String) (hwf : WF s) :
    WF ((KvStore.get s k).2) := by
  rw [get_snd_eq]
  exact wf_read_snd k hwf

theorem remove_wf {s : IndexedLogFile} (k : String) (hwf : WF s) :
    WF ((KvStore.remove s k).2) := by
  rw [remove_eq hwf]
  cases hc : latestCmd s.log_file.file k with
  | none => exact wf_read_snd k hwf
  | some c => exact wf_write _ (wf_read_snd k hwf)

theorem reachable_wf {s : IndexedLogFile} (h : Reachable s) : WF s := by
  induction h with
  | opened disk => exact wf_new disk
  | set k v _ hset ih => exact set_wf k v ih hset
  | get k _ ih => exact get_wf k ih
  | remove k _ ih => exact remove_wf k ih

/-! ## The claims -/

/-- C10: a `get` leaves the observable store state unchanged — the index
contents, `num_writes`, the write position and the records of the log file are
exactly as before the call, whatever the call returns (only the reader cursor
may move). -/
theorem C10_get_preserves_state (s : IndexedLogFile) (k : String) :
    (KvStore.get s k).2.index = s.index
    ∧ (KvStore.get s k).2.log_file.num_writes = s.log_file.num_writes
    ∧ (KvStore.get s k).2.log_file.position = s.log_file.position
    ∧ (KvStore.get s k).2.log_file.file = s.log_file.file := by
  refine ⟨?_, ?_, ?_, ?_⟩ <;> rw [get_snd_eq]
  · exact read_snd_index s k
  · exact read_snd_num_writes s k
  · exact read_snd_position s k
  · exact read_snd_file s k

/-- C4: a `get k` returns `Ok(Some v)` when the latest record for `k` is
`Set k v`, `Ok(None)` both when no record mentions `k` and when the latest
record is a `Remove` tombstone, and never surfaces `KeyNotFound`. -/
theorem C4_get_semantics (s : IndexedLogFile) (k : String) (hwf : WF s) :
    (∀ v, latestCmd s.log_file.file k = some (Command.Set k v) →
        (KvStore.get s k).1 = .ok (some v))
    ∧ (latestCmd s.log_file.file k = none → (KvStore.get s k).1 = .ok none)
    ∧ (latestCmd s.log_file.file k = some (Command.Remove k) →
        (KvStore.get s k).1 = .ok none)
    ∧ (KvStore.get s k).1 ≠ .error KvStoreError.KeyNotFound := by
  refine ⟨?_, ?_, ?_, ?_⟩
  · intro v h
    rw [get_fst_eq hwf, h]
    rfl
  · intro h
    rw [get_fst_eq hwf, h]
    rfl
  · intro h
    rw [get_fst_eq hwf, h]
    rfl
  · rw [get_fst_eq hwf]
    simp

theorem C4_witness :
    (KvStore.get (IndexedLogFile.new [Command.Set "a" "1"]) "a").1 = .ok (some "1")
    ∧ (KvStore.get (IndexedLogFile.new [Command.Set "a" "1"]) "b").1 = .ok none
    ∧ (KvStore.get (IndexedLogFile.new
        [Command.Set "a" "1", Command.Remove "a"]) "a").1 = .ok none :=
  ⟨(C4_get_semantics (IndexedLogFile.new [Command.Set "a" "1"]) "a"
      (wf_new _)).1 "1" (by decide),
   (C4_get_semantics (IndexedLogFile.new [Command.Set "a" "1"]) "b"
      (wf_new _)).2.1 (by decide),
   (C4_get_semantics (IndexedLogFile.new [Command.Set "a" "1", Command.Remove "a"]) "a"
      (wf_new _)).2.2.1 (by decide)⟩

/-- C3: read-your-writes — after `set k v` returns success, `get k` on the
resulting shared state returns `Some v`, also when that `set` itself triggered
and ran compaction before returning. -/
theorem C3_read_your_writes {s s' : IndexedLogFile} (k v : String) (hwf : WF s)
    (h : KvStore.set s k v = .ok s') :
    (KvStore.get s' k).1 = .ok (some v) := by
  have hwf' : WF s' := set_wf k v hwf h
  have hlatest : latestCmd s'.log_file.file k = some (Command.Set k v) := by
    rw [set_eq] at h
    by_cases hcp : KvStore.should_compact (IndexedLogFile.write s (Command.Set k v))
    · rw [if_pos hcp] at h
      have h2 := compact_preserves_latest (wf_write _ hwf) h k
      rw [h2, write_file, latestCmd_concat]
      simp [Command.key]
    · rw [if_neg hcp] at h
      rw [← Except.ok.inj h, write_file, latestCmd_concat]
      simp [Command.key]
  rw [get_fst_eq hwf', hlatest]
  rfl

theorem C3_witness :
    (KvStore.get (IndexedLogFile.write (IndexedLogFile.new [])
        (Command.Set "a" "1")) "a").1 = .ok (some "1")
    ∧ (KvStore.get (IndexedLogFile.new [Command.Set "b" "4", Command.Remove "a"])
        "b").1 = .ok (some "4") :=
  ⟨@C3_read_your_writes (IndexedLogFile.new [])
      (IndexedLogFile.write (IndexedLogFile.new []) (Command.Set "a" "1"))
      "a" "1" (wf_new _) (by rfl),
   @C3_read_your_writes
      (IndexedLogFile.new [Command.Set "a" "1", Command.Remove "a",
        Command.Set "b" "2", Command.Set "b" "3"])
      (IndexedLogFile.new [Command.Set "b" "4", Command.Remove "a"])
      "b" "4" (wf_new _) (by rfl)⟩

/-- C7: durability across restart — re-opening a directory holding the same
record sequence yields a store on which every `get` answers as before: the
rebuilt index maps each key to the position of its last record, and
`num_writes` is the total record count. -/
theorem C7_durability (s : IndexedLogFile) (hwf : WF s) :
    (∀ k, (KvStore.get (IndexedLogFile.new s.log_file.file) k).1
        = (KvStore.get s k).1)
    ∧ (∀ k, Index.find (IndexedLogFile.new s.log_file.file).index k
        = lastKeyIdx s.log_file.file k)
    ∧ (IndexedLogFile.new s.log_file.file).log_file.num_writes
        = s.log_file.file.length := by
  refine ⟨?_, ?_, rfl⟩
  · intro k
    rw [get_fst_eq (wf_new _), get_fst_eq hwf, new_file]
  · intro k
    exact (wf_new s.log_file.file).find_eq k

theorem C7_witness :
    (KvStore.get (IndexedLogFile.new
        (IndexedLogFile.write (IndexedLogFile.new [])
          (Command.Set "a" "1")).log_file.file) "a").1
      = (KvStore.get (IndexedLogFile.write (IndexedLogFile.new [])
          (Command.Set "a" "1")) "a").1 :=
  (C7_durability (IndexedLogFile.write (IndexedLogFile.new []) (Command.Set "a" "1"))
    (wf_write _ (wf_new []))).1 "a"

/-- C1 counterexample: starting from the store opened on
`[Set a 1, Remove a, Set b 2, Set b 3]`, the `set b 4` triggers compaction
(`num_writes = 5 > 4 = 2 × |index|` after the append), and the compacted log
is `[Set b 4, Remove a]` — it still contains the `Remove a` tombstone record,
although the latest record for `a` before compaction was a `Remove`. -/
theorem C1_counterexample :
    KvStore.set (IndexedLogFile.new [Command.Set "a" "1", Command.Remove "a",
        Command.Set "b" "2", Command.Set "b" "3"]) "b" "4"
      = .ok (IndexedLogFile.new [Command.Set "b" "4", Command.Remove "a"])
    ∧ KvStore.should_compact (IndexedLogFile.write
        (IndexedLogFile.new [Command.Set "a" "1", Command.Remove "a",
          Command.Set "b" "2", Command.Set "b" "3"]) (Command.Set "b" "4")) = true
    ∧ latestCmd (IndexedLogFile.new [Command.Set "a" "1", Command.Remove "a",
        Command.Set "b" "2", Command.Set "b" "3"]).log_file.file "a"
      = some (Command.Remove "a")
    ∧ Command.Remove "a" ∈
        (IndexedLogFile.new
          [Command.Set "b" "4", Command.Remove "a"]).log_file.file :=
  ⟨by rfl, by decide, by decide, by decide⟩

/-- C1 (amended): the log produced by a completed compaction contains exactly
one record per key of the pre-compaction index — the latest record of that
key copied verbatim: the latest `Set` for each live key, and the latest
`Remove` for each tombstoned key.  The copy loop does not skip `Remove`
records, so tombstoned keys are retained, not omitted. -/
theorem C1_compacted_content {s s2 : IndexedLogFile} (hwf : WF s)
    (h : KvStore.compact_log s = .ok s2) :
    ((s2.log_file.file.map Command.key).Nodup)
    ∧ (∀ c ∈ s2.log_file.file, latestCmd s.log_file.file c.key = some c)
    ∧ (∀ k v, latestCmd s.log_file.file k = some (Command.Set k v) →
        Command.Set k v ∈ s2.log_file.file)
    ∧ (∀ k, latestCmd s.log_file.file k = some (Command.Remove k) →
        Command.Remove k ∈ s2.log_file.file) := by
  rw [compact_log_eq hwf] at h
  have hs2 : IndexedLogFile.new (compactedFile s) = s2 := Except.ok.inj h
  subst hs2
  refine ⟨compactedFile_nodup_keys hwf, ?_, ?_, ?_⟩
  · intro c hc
    exact compactedFile_latest hc
  · intro k v hk
    exact latest_mem_compactedFile hwf hk
  · intro k hk
    exact latest_mem_compactedFile hwf hk

theorem C1_witness :
    Command.Remove "a" ∈ (IndexedLogFile.new [Command.Remove "a"]).log_file.file
    ∧ Command.Set "b" "2" ∈
        (IndexedLogFile.new [Command.Set "b" "2"]).log_file.file :=
  ⟨(@C1_compacted_content
      (IndexedLogFile.new [Command.Set "a" "1", Command.Remove "a"])
      (IndexedLogFile.new [Command.Remove "a"])
      (wf_new _) (by rfl)).2.2.2 "a" (by decide),
   (@C1_compacted_content
      (IndexedLogFile.new [Command.Set "b" "1", Command.Set "b" "2"])
      (IndexedLogFile.new [Command.Set "b" "2"])
      (wf_new _) (by rfl)).2.2.1 "b" "2" (by decide)⟩

/-- C2 counterexample: on the store opened from `[Set a 1, Remove a]`, whose
latest record for `a` is a `Remove` tombstone (so `a` is absent), `remove a`
does not return `KeyNotFound` as the claim requires: the index still holds
`a` (mapped to its tombstone), so it succeeds and appends a second
tombstone. -/
theorem C2_counterexample :
    latestCmd (IndexedLogFile.new
        [Command.Set "a" "1", Command.Remove "a"]).log_file.file "a"
      = some (Command.Remove "a")
    ∧ (KvStore.remove (IndexedLogFile.new
        [Command.Set "a" "1", Command.Remove "a"]) "a").1 = .ok ()
    ∧ (KvStore.remove (IndexedLogFile.new
        [Command.Set "a" "1", Command.Remove "a"]) "a").2.log_file.file
      = [Command.Set "a" "1", Command.Remove "a", Command.Remove "a"] :=
  ⟨by decide, by decide, by decide⟩

/-- C2 (amended): a `remove k` returns `KeyNotFound` — leaving the log records,
the index, and `num_writes` unchanged — exactly when no record in the log
mentions `k`; when `k` has a latest record, whether a `Set` **or a `Remove`
tombstone**, `remove` succeeds, appends exactly one `Remove` record, and
updates the index to point at it. -/
theorem C2_remove_semantics (s : IndexedLogFile) (k : String) (hwf : WF s) :
    (latestCmd s.log_file.file k = none →
      (KvStore.remove s k).1 = .error KvStoreError.KeyNotFound
      ∧ (KvStore.remove s k).2.log_file.file = s.log_file.file
      ∧ (KvStore.remove s k).2.index = s.index
      ∧ (KvStore.remove s k).2.log_file.num_writes = s.log_file.num_writes)
    ∧ (∀ c, latestCmd s.log_file.file k = some c →
      (KvStore.remove s k).1 = .ok ()
      ∧ (KvStore.remove s k).2.log_file.file
          = s.log_file.file ++ [Command.Remove k]
      ∧ Index.find (KvStore.remove s k).2.index k
          = some s.log_file.file.length) := by
  constructor
  · intro h
    rw [remove_eq hwf, h]
    exact ⟨rfl, read_snd_file s k, read_snd_index s k, read_snd_num_writes s k⟩
  · intro c h
    rw [remove_eq hwf, h]
    refine ⟨rfl, ?_, ?_⟩
    · show (IndexedLogFile.write (IndexedLogFile.read s k).2
          (Command.Remove k)).log_file.file = _
      rw [write_file, read_snd_file]
    · show Index.find (IndexedLogFile.write (IndexedLogFile.read s k).2
          (Command.Remove k)).index k = _
      rw [write_index, read_snd_index, Index.find_insert,
        if_pos (show k = (Command.Remove k).key from rfl),
        read_snd_position, hwf.pos_eq]

theorem C2_witness :
    (KvStore.remove (IndexedLogFile.new []) "a").1
      = .error KvStoreError.KeyNotFound
    ∧ (KvStore.remove (IndexedLogFile.new [Command.Set "a" "1"]) "a").1 = .ok () :=
  ⟨((C2_remove_semantics (IndexedLogFile.new []) "a" (wf_new _)).1 (by decide)).1,
   ((C2_remove_semantics (IndexedLogFile.new [Command.Set "a" "1"]) "a"
      (wf_new _)).2 (Command.Set "a" "1") (by decide)).1⟩

/-- C5: a successful `set` runs compaction before returning exactly when,
after appending the new record, `num_writes > 2 × |index|` holds on the
shared state; a `get` never changes the log, and a `remove` at most appends a
single `Remove` record — neither ever compacts. -/
theorem C5_compaction_trigger (s : IndexedLogFile) (k v : String) (hwf : WF s) :
    ((IndexedLogFile.write s (Command.Set k v)).log_file.num_writes
        > 2 * (IndexedLogFile.write s (Command.Set k v)).index.length →
      KvStore.set s k v
        = KvStore.compact_log (IndexedLogFile.write s (Command.Set k v)))
    ∧ (¬ ((IndexedLogFile.write s (Command.Set k v)).log_file.num_writes
        > 2 * (IndexedLogFile.write s (Command.Set k v)).index.length) →
      KvStore.set s k v = .ok (IndexedLogFile.write s (Command.Set k v)))
    ∧ ((KvStore.get s k).2.log_file.file = s.log_file.file)
    ∧ ((KvStore.remove s k).2.log_file.file = s.log_file.file
        ∨ (KvStore.remove s k).2.log_file.file
            = s.log_file.file ++ [Command.Remove k]) := by
  refine ⟨?_, ?_, ?_, ?_⟩
  · intro h
    rw [set_eq, if_pos (by simpa [KvStore.should_compact] using h)]
  · intro h
    rw [set_eq, if_neg (by simpa [KvStore.should_compact] using h)]
  · rw [get_snd_eq]
    exact read_snd_file s k
  · rw [remove_eq hwf]
    cases hc : latestCmd s.log_file.file k with
    | none =>
        exact Or.inl (read_snd_file s k)
    | some c =>
        refine Or.inr ?_
        show (IndexedLogFile.write (IndexedLogFile.read s k).2
            (Command.Remove k)).log_file.file = _
        rw [write_file, read_snd_file]

theorem C5_witness :
    KvStore.set (IndexedLogFile.new []) "a" "1"
      = .ok (IndexedLogFile.write (IndexedLogFile.new []) (Command.Set "a" "1"))
    ∧ KvStore.set (IndexedLogFile.new [Command.Set "a" "1", Command.Remove "a",
          Command.Set "b" "2", Command.Set "b" "3"]) "b" "4"
      = KvStore.compact_log (IndexedLogFile.write
          (IndexedLogFile.new [Command.Set "a" "1", Command.Remove "a",
            Command.Set "b" "2", Command.Set "b" "3"]) (Command.Set "b" "4")) :=
  ⟨(C5_compaction_trigger (IndexedLogFile.new []) "a" "1" (wf_new _)).2.1
      (by decide),
   (C5_compaction_trigger (IndexedLogFile.new [Command.Set "a" "1",
        Command.Remove "a", Command.Set "b" "2", Command.Set "b" "3"])
      "b" "4" (wf_new _)).1 (by decide)⟩

/-- C6: immediately after a compaction completes, `num_writes` equals the
size of the rebuilt index, and every key mentioned anywhere in the compacted
log appears in exactly one of its records. -/
theorem C6_compaction_bounds {s s2 : IndexedLogFile} (hwf : WF s)
    (h : KvStore.compact_log s = .ok s2) :
    s2.log_file.num_writes = s2.index.length
    ∧ ∀ k ∈ s2.log_file.file.map Command.key,
        (s2.log_file.file.filter (fun c => c.key == k)).length = 1 := by
  rw [compact_log_eq hwf] at h
  have hs2 : IndexedLogFile.new (compactedFile s) = s2 := Except.ok.inj h
  subst hs2
  have hknd := compactedFile_nodup_keys hwf
  constructor
  · rw [new_num_writes, new_index,
      scanIndex_length _ _ _ hknd (by intro a ha hmem; simp at hmem)]
    simp
  · intro k hk
    rw [new_file] at hk ⊢
    rcases List.mem_map.mp hk with ⟨c, hc, hck⟩
    rw [← hck, filter_key_of_nodup _ hknd c hc]
    rfl

theorem C6_witness :
    (IndexedLogFile.new [Command.Set "a" "2"]).log_file.num_writes
      = (IndexedLogFile.new [Command.Set "a" "2"]).index.length :=
  (@C6_compaction_bounds
    (IndexedLogFile.new [Command.Set "a" "1", Command.Set "a" "2"])
    (IndexedLogFile.new [Command.Set "a" "2"])
    (wf_new _) (by rfl)).1

/-- C8: the code does not hold the mutex across compaction — in the source
every `self.indexed_log_file.lock().unwrap()` guard inside `compact_log` is a
temporary dropped at its own statement, so the lock is free between the index
snapshot and the installation of the compacted file.  A `set` of a key
outside the snapshot, run by another handle in that window, is accepted and
then silently discarded: on the store opened from `[Set a 1]`, interleaving
`set b 2` with the compaction yields the state opened from `[Set a 1]` alone,
on which `get b` returns `None` although the interleaved `set` succeeded. -/
theorem C8_interleaved_set_lost :
    KvStore.compact_log_interleaved (IndexedLogFile.new [Command.Set "a" "1"])
        (fun t => IndexedLogFile.write t (Command.Set "b" "2"))
      = .ok (IndexedLogFile.new [Command.Set "a" "1"])
    ∧ (KvStore.get (IndexedLogFile.new [Command.Set "a" "1"]) "b").1 = .ok none :=
  ⟨by rfl, by decide⟩

/-- C9: when the engine's `remove` fails with `KeyNotFound`, the server's wire
response is `Err(Server("Key not found"))` — the error mapped through its
display form, whose text is exactly "Key not found"; a `Get` of an absent key
(no record for it, or a `Remove` tombstone as latest record) produces the
success response `Ok(Get(None))`, never an error response. -/
theorem C9_wire_responses (s : IndexedLogFile) (k : String) (hwf : WF s) :
    ((KvStore.remove s k).1 = .error KvStoreError.KeyNotFound →
      (handle s (Req.Remove k)).1 = .error (NetError.Server "Key not found"))
    ∧ (latestCmd s.log_file.file k = none
        ∨ latestCmd s.log_file.file k = some (Command.Remove k) →
      (handle s (Req.Get k)).1 = .ok (SuccResp.Get none)) := by
  constructor
  · intro h
    simp [handle, h, KvStoreError.display]
  · intro h
    have hget : (KvStore.get s k).1 = .ok none := by
      rcases h with h | h <;> rw [get_fst_eq hwf, h] <;> rfl
    simp [handle, hget]

theorem C9_witness :
    (handle (IndexedLogFile.new []) (Req.Remove "a")).1
      = .error (NetError.Server "Key not found")
    ∧ (handle (IndexedLogFile.new [Command.Set "a" "1", Command.Remove "a"])
        (Req.Get "a")).1 = .ok (SuccResp.Get none) :=
  ⟨(C9_wire_responses (IndexedLogFile.new []) "a" (wf_new _)).1 (by decide),
   (C9_wire_responses (IndexedLogFile.new [Command.Set "a" "1", Command.Remove "a"])
      "a" (wf_new _)).2 (Or.inr (by decide))⟩

end Kvs
